import Mathlib

/-!
Shallow embedding of the zero-shot CLIP evaluation pipeline
(`CLIPClassifier.prepare_dataset`, `CLIPClassifier.inference_on_samples`,
`CLIPClassifier.evaluate` and the module-level `softmax` helper), together
with models of the external numpy/sklearn primitives the code calls
(`np.argmax`, `np.max`, `np.dot`, `np.linalg.norm`, `np.mean`,
`sklearn.metrics.precision_recall_fscore_support(average='weighted')`,
`sklearn.metrics.classification_report`).  Floating-point arrays are
modelled as lists over `ℝ` (for the embedding/score pipeline, which uses
`exp` and `sqrt`) and metric values as `ℚ` (the metric arithmetic is
exact rational arithmetic on counts).
-/

/-- Model of `np.argmax` scanning loop: keeps the current best value `bv`
found at index `best`, scanning the remaining list whose head sits at
index `i`; replaces the champion only on a strictly greater value, which
is numpy's documented first-occurrence tie-breaking. -/
def np_argmaxGo {α : Type} [LinearOrder α] : List α → α → Nat → Nat → Nat
  | [], _, best, _ => best
  | y :: ys, bv, best, i =>
      if bv < y then np_argmaxGo ys y i (i + 1) else np_argmaxGo ys bv best (i + 1)

/-- Model of `np.argmax` on a 1-D array: index of the first occurrence of
the maximum (`0` on the empty array, where numpy raises instead). -/
def np_argmax {α : Type} [LinearOrder α] : List α → Nat
  | [] => 0
  | x :: xs => np_argmaxGo xs x 0 1

/-- Model of `np.max` on a 1-D real array (`0` on the empty array, where
numpy raises instead). -/
noncomputable def np_max : List ℝ → ℝ
  | [] => 0
  | x :: xs => xs.foldl max x

/-- The module-level `softmax` helper applied to a 1-D score vector, as in
`inference_on_samples`: `e_x = np.exp(x - np.max(x)); e_x / e_x.sum()`. -/
noncomputable def softmax (x : List ℝ) : List ℝ :=
  (x.map fun v => Real.exp (v - np_max x)).map
    fun v => v / (x.map fun w => Real.exp (w - np_max x)).sum

/-- The same `softmax` source code applied to a 2-D array: under numpy
semantics `np.max(x)` is the global maximum and `e_x.sum()` the global
sum, so the whole array (not each row) is normalized. -/
noncomputable def softmax2d (x : List (List ℝ)) : List (List ℝ) :=
  (x.map fun row => row.map fun v => Real.exp (v - np_max x.flatten)).map
    fun row => row.map fun v =>
      v / ((x.map fun r => r.map fun w => Real.exp (w - np_max x.flatten)).map List.sum).sum

/-- Model of the 1-D dot product `np.dot` used to score one image
embedding against one row of the label embedding matrix. -/
noncomputable def dot (a b : List ℝ) : ℝ :=
  ((a.zip b).map fun q => q.1 * q.2).sum

/-- Row `i` of `np.dot(image_embeddings, label_embeddings.T)`: the score
vector of one image against every row of the label embedding matrix. -/
noncomputable def scoresFor (labelEmb : List (List ℝ)) (img : List ℝ) : List ℝ :=
  labelEmb.map fun row => dot img row

/-- The predicted label of one image: `self.labels[np.argmax(scores)]`,
exactly as in `inference_on_samples` and (per row) in `evaluate`. -/
noncomputable def predictLabel (labels : List String) (labelEmb : List (List ℝ))
    (img : List ℝ) : String :=
  labels.getD (np_argmax (scoresFor labelEmb img)) ""

/-- The CLIP-style label template of `prepare_dataset`:
`f"a photo of a {label}"`. -/
def clip_template (label : String) : String := "a photo of a " ++ label

/-- Column `j` of `np.linalg.norm(E, axis=0)`: the Euclidean norm of the
`j`-th embedding dimension taken across all label rows. -/
noncomputable def colNorm (E : List (List ℝ)) (j : Nat) : ℝ :=
  Real.sqrt ((E.map fun row => (row.getD j 0) ^ 2).sum)

/-- One row of the normalized label matrix: the broadcast division of a
row by the per-column norm vector of the whole matrix `E`. -/
noncomputable def normalizeRow (E : List (List ℝ)) (row : List ℝ) : List ℝ :=
  (List.range row.length).map fun j => row.getD j 0 / colNorm E j

/-- The label-embedding normalization of `prepare_dataset`:
`label_embeddings / np.linalg.norm(label_embeddings, axis=0)` -- every
entry is divided by the norm of its own column across all labels. -/
noncomputable def normalize_label_embeddings (E : List (List ℝ)) : List (List ℝ) :=
  E.map (normalizeRow E)

/-- Euclidean norm of a single row, used only to express the alternative
per-row normalization that the code does NOT perform. -/
noncomputable def rowNormL2 (r : List ℝ) : ℝ :=
  Real.sqrt ((r.map fun v => v ^ 2).sum)

/-- The per-row L2 self-normalization (each label vector divided by its
own norm); stated from the spec's wording as the alternative the code's
normalization is compared against. -/
noncomputable def normalize_per_row (E : List (List ℝ)) : List (List ℝ) :=
  E.map fun r => r.map fun v => v / rowNormL2 r

/-- The full label-matrix construction of `prepare_dataset`: template
every vocabulary entry, push the templated strings through the text
encoder (one row per label, in vocabulary order), then column-normalize
the resulting matrix. -/
noncomputable def labelMatrix (textEnc : String → List ℝ) (labels : List String) :
    List (List ℝ) :=
  normalize_label_embeddings (labels.map fun l => textEnc (clip_template l))

/-- Model of `sorted(list(set(xs)))`: the deduplicated, sorted list. -/
def uniqueSorted (l : List String) : List String :=
  List.insertionSort (fun a b => a ≤ b) l.dedup

/-- Number of occurrences of `c` in `l` (class support / prediction
count). -/
def countEq (l : List String) (c : String) : Nat :=
  l.countP fun x => x = c

/-- Number of positions where both the true and the predicted label equal
`c` (the true positives of class `c`). -/
def truePos (t p : List String) (c : String) : Nat :=
  (t.zip p).countP fun q => q.1 = c ∧ q.2 = c

/-- Support of class `c`: its number of true instances. -/
def support (t : List String) (c : String) : Nat := countEq t c

/-- Per-class precision as sklearn computes it with its default
zero-division handling (`0` when the class is never predicted). -/
def classPrecision (t p : List String) (c : String) : ℚ :=
  if countEq p c = 0 then 0 else (truePos t p c : ℚ) / (countEq p c : ℚ)

/-- Per-class recall (`0` when the class has no true instances). -/
def classRecall (t p : List String) (c : String) : ℚ :=
  if support t c = 0 then 0 else (truePos t p c : ℚ) / (support t c : ℚ)

/-- Per-class F1: harmonic mean of precision and recall, `0` when both
vanish. -/
def classF1 (t p : List String) (c : String) : ℚ :=
  if classPrecision t p c + classRecall t p c = 0 then 0
  else 2 * classPrecision t p c * classRecall t p c /
    (classPrecision t p c + classRecall t p c)

/-- The sorted unique labels sklearn derives from `y_true ∪ y_pred` when
no explicit `labels=` argument is passed. -/
def presentLabels (t p : List String) : List String := uniqueSorted (t ++ p)

/-- Support-weighted average of a per-class metric over the present
labels, as in `precision_recall_fscore_support(average='weighted')`. -/
def weightedAvg (t p : List String) (m : String → ℚ) : ℚ :=
  ((presentLabels t p).map fun c => (support t c : ℚ) * m c).sum /
    ((presentLabels t p).map fun c => (support t c : ℚ)).sum

/-- Weighted precision of `evaluate` (first component of
`precision_recall_fscore_support(all_labels, all_predictions,
average='weighted')`). -/
def weightedPrecision (t p : List String) : ℚ := weightedAvg t p (classPrecision t p)

/-- Weighted recall of `evaluate`. -/
def weightedRecall (t p : List String) : ℚ := weightedAvg t p (classRecall t p)

/-- Weighted F1 of `evaluate`. -/
def weightedF1 (t p : List String) : ℚ := weightedAvg t p (classF1 t p)

/-- Accuracy as `evaluate` computes it:
`np.mean(np.array(all_predictions) == np.array(all_labels))`, i.e. the
mean of the 0/1 indicator array of elementwise equality. -/
def accuracy (p t : List String) : ℚ :=
  (((p.zip t).map fun q => if q.1 = q.2 then (1 : ℚ) else 0).sum) / (p.length : ℚ)

/-- Number of positions at which prediction and truth agree (the spec's
"fraction of exact matches", before dividing by the length). -/
def matchCount (p t : List String) : Nat :=
  (p.zip t).countP fun q => q.1 = q.2

/-- Model of `sklearn.metrics.classification_report(y_true, y_pred,
target_names=..., output_dict=True)` restricted to its per-class rows:
the classes are the sorted unique labels of `y_true ∪ y_pred` (no
`labels=` argument is passed by the code), positionally renamed by
`target_names`; a size mismatch raises `ValueError`.  Each row is
`(name, precision, recall, f1, support)`. -/
def classification_report (t p : List String) (target_names : List String) :
    Except String (List (String × ℚ × ℚ × ℚ × Nat)) :=
  if (uniqueSorted (t ++ p)).length = target_names.length then
    Except.ok (((uniqueSorted (t ++ p)).zip target_names).map fun q =>
      (q.2, classPrecision t p q.1, classRecall t p q.1, classF1 t p q.1, support t q.1))
  else
    Except.error "Number of classes does not match size of target_names"

/-- Label vocabulary of a run, exactly as `prepare_dataset` derives it:
`sorted(list(set(self.dataset[text_column])))`. -/
def runLabels {Img : Type} (dataset : List (Img × String)) : List String :=
  uniqueSorted (dataset.map fun s => s.2)

/-- Label embedding matrix of a run: the templated vocabulary pushed
through the text encoder, then column-normalized, as in
`prepare_dataset`. -/
noncomputable def runLabelEmb {Img : Type} (textEnc : String → List ℝ)
    (dataset : List (Img × String)) : List (List ℝ) :=
  labelMatrix textEnc (runLabels dataset)

/-- Accumulated predictions of `evaluate` over the full dataset pass (the
batch loop accumulates predictions in dataset order, so batching does not
affect the accumulated list). -/
noncomputable def runPreds {Img : Type} (textEnc : String → List ℝ)
    (enc : Img → List ℝ) (dataset : List (Img × String)) : List String :=
  dataset.map fun s => predictLabel (runLabels dataset) (runLabelEmb textEnc dataset) (enc s.1)

/-- Accumulated true labels of `evaluate` over the full dataset pass. -/
def runTrue {Img : Type} (dataset : List (Img × String)) : List String :=
  dataset.map fun s => s.2

/-- The classification report produced at the end of `evaluate`:
`classification_report(all_labels, all_predictions,
target_names=self.labels)`. -/
noncomputable def runReport {Img : Type} (textEnc : String → List ℝ)
    (enc : Img → List ℝ) (dataset : List (Img × String)) :
    Except String (List (String × ℚ × ℚ × ℚ × Nat)) :=
  classification_report (runTrue dataset) (runPreds textEnc enc dataset) (runLabels dataset)

/-- Concrete text encoder used for concrete evaluation runs. -/
noncomputable def textEnc0 : String → List ℝ :=
  fun s => if s = "a photo of a a" then [1] else [0]

/-- Concrete two-sample dataset (image embeddings stand for the images;
the image encoder is the identity). -/
noncomputable def ds0 : List (List ℝ × String) := [([1], "a"), ([1], "b")]

/-- Loop invariant of the `np.argmax` scan: either the champion survives
(and every scanned value is at most the champion value), or the result is
the position of the first strict maximum of the scanned suffix. -/
theorem np_argmaxGo_spec {α : Type} [LinearOrder α] :
    ∀ (ys : List α) (bv : α) (best i : Nat),
      (np_argmaxGo ys bv best i = best ∧ ∀ j (hj : j < ys.length), ys.get ⟨j, hj⟩ ≤ bv) ∨
      (∃ j, ∃ hj : j < ys.length, np_argmaxGo ys bv best i = i + j ∧
        bv < ys.get ⟨j, hj⟩ ∧
        (∀ k (hk : k < ys.length), ys.get ⟨k, hk⟩ ≤ ys.get ⟨j, hj⟩) ∧
        (∀ k (hk : k < ys.length), k < j → ys.get ⟨k, hk⟩ < ys.get ⟨j, hj⟩)) := by
  intro ys
  induction ys with
  | nil =>
    intro bv best i
    exact Or.inl ⟨rfl, fun j hj => absurd hj (Nat.not_lt_zero j)⟩
  | cons y ys ih =>
    intro bv best i
    by_cases h : bv < y
    · rw [np_argmaxGo, if_pos h]
      rcases ih y i (i + 1) with ⟨heq, hle⟩ | ⟨j, hj, heq, hlt, hmax, hfirst⟩
      · refine Or.inr ⟨0, Nat.succ_pos _, ?_, ?_, ?_, ?_⟩
        · rw [heq]; omega
        · exact h
        · intro k hk
          match k with
          | 0 => exact le_rfl
          | k + 1 => exact hle k (by simpa using hk)
        · intro k hk hk0
          exact absurd hk0 (Nat.not_lt_zero k)
      · refine Or.inr ⟨j + 1, by simpa using Nat.succ_lt_succ hj, ?_, ?_, ?_, ?_⟩
        · rw [heq]; omega
        · exact lt_trans h hlt
        · intro k hk
          match k with
          | 0 => exact le_of_lt hlt
          | k + 1 => exact hmax k (by simpa using hk)
        · intro k hk hkj
          match k with
          | 0 => exact hlt
          | k + 1 => exact hfirst k (by simpa using hk) (by omega)
    · rw [np_argmaxGo, if_neg h]
      rcases ih bv best (i + 1) with ⟨heq, hle⟩ | ⟨j, hj, heq, hlt, hmax, hfirst⟩
      · refine Or.inl ⟨heq, ?_⟩
        intro k hk
        match k with
        | 0 => exact le_of_not_lt h
        | k + 1 => exact hle k (by simpa using hk)
      · refine Or.inr ⟨j + 1, by simpa using Nat.succ_lt_succ hj, ?_, ?_, ?_, ?_⟩
        · rw [heq]; omega
        · exact hlt
        · intro k hk
          match k with
          | 0 => exact le_of_lt (lt_of_le_of_lt (le_of_not_lt h) hlt)
          | k + 1 => exact hmax k (by simpa using hk)
        · intro k hk hkj
          match k with
          | 0 => exact lt_of_le_of_lt (le_of_not_lt h) hlt
          | k + 1 => exact hfirst k (by simpa using hk) (by omega)

/-- Specification of `np.argmax` on a nonempty list: the returned index
is in range, holds a maximal value, and is the least index holding that
value (numpy's first-occurrence tie-breaking). -/
theorem np_argmax_spec {α : Type} [LinearOrder α] (l : List α) (h : l ≠ []) :
    ∃ hlt : np_argmax l < l.length,
      (∀ j (hj : j < l.length), l.get ⟨j, hj⟩ ≤ l.get ⟨np_argmax l, hlt⟩) ∧
      (∀ j (hj : j < l.length), l.get ⟨j, hj⟩ = l.get ⟨np_argmax l, hlt⟩ →
        np_argmax l ≤ j) := by
  match l with
  | [] => exact absurd rfl h
  | x :: xs =>
    rw [np_argmax]
    rcases np_argmaxGo_spec xs x 0 1 with ⟨heq, hle⟩ | ⟨j, hj, heq, hlt, hmax, hfirst⟩
    · rw [heq]
      refine ⟨Nat.succ_pos _, ?_, ?_⟩
      · intro k hk
        match k with
        | 0 => exact le_rfl
        | k + 1 => exact hle k (by simpa using hk)
      · intro k hk _
        exact Nat.zero_le k
    · rw [heq]
      have h1j : 1 + j = j + 1 := by omega
      rw [h1j]
      have hlt1 : j + 1 < (x :: xs).length := by simpa using Nat.succ_lt_succ hj
      refine ⟨hlt1, ?_, ?_⟩
      · intro k hk
        match k with
        | 0 => exact le_of_lt hlt
        | k + 1 => exact hmax k (by simpa using hk)
      · intro k hk hkeq
        match k with
        | 0 => exact absurd hkeq (ne_of_lt hlt)
        | k + 1 =>
          by_contra hcon
          exact absurd hkeq (ne_of_lt (hfirst k (by simpa using hk) (by omega)))

/-- The `np.argmax` index of a nonempty list is in range. -/
theorem np_argmax_lt_length {α : Type} [LinearOrder α] (l : List α) (h : l ≠ []) :
    np_argmax l < l.length :=
  (np_argmax_spec l h).choose

/-- The `np.argmax` scan is unchanged by applying a strictly monotone
function to the champion and all scanned values. -/
theorem np_argmaxGo_map {α β : Type} [LinearOrder α] [LinearOrder β]
    (f : α → β) (hf : StrictMono f) :
    ∀ (ys : List α) (bv : α) (best i : Nat),
      np_argmaxGo (ys.map f) (f bv) best i = np_argmaxGo ys bv best i := by
  intro ys
  induction ys with
  | nil => intro bv best i; rfl
  | cons y ys ih =>
    intro bv best i
    by_cases h : bv < y
    · rw [List.map_cons, np_argmaxGo, if_pos (hf h), np_argmaxGo, if_pos h, ih]
    · rw [List.map_cons, np_argmaxGo, if_neg (fun hc => h (hf.lt_iff_lt.mp hc)),
        np_argmaxGo, if_neg h, ih]

/-- `np.argmax` is unchanged by applying a strictly monotone function to
every element. -/
theorem np_argmax_map {α β : Type} [LinearOrder α] [LinearOrder β]
    (f : α → β) (hf : StrictMono f) (l : List α) :
    np_argmax (l.map f) = np_argmax l := by
  match l with
  | [] => rfl
  | x :: xs =>
    rw [List.map_cons, np_argmax, np_argmax, np_argmaxGo_map f hf]

/-- Folding `max` distributes over adding a constant to the seed and all
elements. -/
theorem foldl_max_add (c : ℝ) :
    ∀ (xs : List ℝ) (x : ℝ), (xs.map fun v => v + c).foldl max (x + c) = xs.foldl max x + c := by
  intro xs
  induction xs with
  | nil => intro x; rfl
  | cons y ys ih =>
    intro x
    rw [List.map_cons, List.foldl_cons, List.foldl_cons, max_add_add_right, ih]

/-- `np.max` commutes with adding a constant to every element of a
nonempty array. -/
theorem np_max_shift (x : List ℝ) (hne : x ≠ []) (c : ℝ) :
    np_max (x.map fun v => v + c) = np_max x + c := by
  match x with
  | [] => exact absurd rfl hne
  | a :: xs =>
    rw [List.map_cons, np_max, np_max, foldl_max_add]

/-- Dividing every element of a list by a constant divides the sum. -/
theorem list_sum_div (l : List ℝ) (s : ℝ) :
    (l.map fun v => v / s).sum = l.sum / s := by
  induction l with
  | nil => simp
  | cons a l ih => rw [List.map_cons, List.sum_cons, List.sum_cons, ih, add_div]

/-- The sum of the shifted exponentials of a nonempty score vector is
positive. -/
theorem expSum_pos (x : List ℝ) (hne : x ≠ []) (M : ℝ) :
    0 < (x.map fun w => Real.exp (w - M)).sum := by
  apply List.sum_pos
  · intro v hv
    rcases List.mem_map.mp hv with ⟨w, _, rfl⟩
    exact Real.exp_pos _
  · simpa using hne

/-- `softmax` is the pointwise map sending each score `v` to
`exp (v - max) / Σ exp (· - max)`. -/
theorem softmax_eq_map (x : List ℝ) :
    softmax x = x.map fun v =>
      Real.exp (v - np_max x) / (x.map fun w => Real.exp (w - np_max x)).sum := by
  rw [softmax, List.map_map]
  rfl

/-- On a nonempty score vector the components of `softmax` sum to `1`. -/
theorem softmax_sum_eq_one (x : List ℝ) (hne : x ≠ []) :
    (softmax x).sum = 1 := by
  rw [softmax, list_sum_div]
  exact div_self (ne_of_gt (expSum_pos x hne _))

/-- `softmax` is invariant under adding one constant to every score. -/
theorem softmax_shift (x : List ℝ) (c : ℝ) :
    softmax (x.map fun v => v + c) = softmax x := by
  match x with
  | [] => rfl
  | a :: xs =>
    have hM : np_max ((a :: xs).map fun v => v + c) = np_max (a :: xs) + c :=
      np_max_shift _ (List.cons_ne_nil a xs) c
    rw [softmax_eq_map, softmax_eq_map, hM, List.map_map, List.map_map]
    have harg : ((fun v => Real.exp (v - (np_max (a :: xs) + c))) ∘ fun v => v + c) =
        fun v => Real.exp (v - np_max (a :: xs)) := by
      funext v
      have : v + c - (np_max (a :: xs) + c) = v - np_max (a :: xs) := by ring
      rw [Function.comp_apply, this]
    have hfull : ((fun v =>
          Real.exp (v - (np_max (a :: xs) + c)) /
            ((a :: xs).map fun w => Real.exp (w - np_max (a :: xs))).sum) ∘ fun v => v + c) =
        fun v =>
          Real.exp (v - np_max (a :: xs)) /
            ((a :: xs).map fun w => Real.exp (w - np_max (a :: xs))).sum := by
      funext v
      have : v + c - (np_max (a :: xs) + c) = v - np_max (a :: xs) := by ring
      rw [Function.comp_apply, this]
    rw [harg, hfull]

/-- The pointwise `softmax` transform of a nonempty score vector is
strictly monotone, so `np.argmax` is preserved by `softmax`. -/
theorem np_argmax_softmax (s : List ℝ) :
    np_argmax (softmax s) = np_argmax s := by
  match s with
  | [] => rfl
  | a :: xs =>
    rw [softmax_eq_map]
    apply np_argmax_map
    intro u v huv
    exact div_lt_div_of_pos_right (Real.exp_lt_exp.mpr (sub_lt_sub_right huv _))
      (expSum_pos (a :: xs) (List.cons_ne_nil a xs) _)

/-- Applied to a 2-D batch, the code's `softmax` normalizes by the global
sum: the entries of the whole output array sum to `1`. -/
theorem softmax2d_total_sum (x : List (List ℝ)) (hne : x.flatten ≠ []) :
    ((softmax2d x).map List.sum).sum = 1 := by
  set M := np_max x.flatten with hM
  set S := ((x.map fun r => r.map fun w => Real.exp (w - M)).map List.sum).sum with hS
  have hSpos : 0 < S := by
    have h1 : (x.flatten.map fun w => Real.exp (w - M))
        = (x.map fun r => r.map fun w => Real.exp (w - M)).flatten :=
      List.map_flatten _ x
    calc (0 : ℝ) < (x.flatten.map fun w => Real.exp (w - M)).sum := expSum_pos x.flatten hne _
      _ = (x.map fun r => r.map fun w => Real.exp (w - M)).flatten.sum := by rw [h1]
      _ = S := List.sum_flatten
  have hentry : softmax2d x = (x.map fun r => r.map fun w => Real.exp (w - M)).map
      fun row => row.map fun v => v / S := rfl
  rw [hentry, List.map_map]
  have hcomp : (List.sum ∘ fun row : List ℝ => row.map fun v => v / S) =
      fun row : List ℝ => row.sum / S :=
    funext fun row => list_sum_div row S
  rw [hcomp]
  have hcomp2 : (fun row : List ℝ => row.sum / S) = (fun v : ℝ => v / S) ∘ List.sum := rfl
  rw [hcomp2, ← List.map_map, list_sum_div]
  exact div_self (ne_of_gt hSpos)

/-- Claim C4: for every 1-D score vector the components of `softmax` sum
to `1`, and `softmax` is invariant under adding one constant to every
element (the numerical-stability property).  The sum statement requires a
nonempty vector, since `np.max` raises on an empty array. -/
theorem C4_softmax_sum_and_shift :
    (∀ s : List ℝ, s ≠ [] → (softmax s).sum = 1) ∧
    (∀ (s : List ℝ) (c : ℝ), softmax (s.map fun v => v + c) = softmax s) :=
  ⟨fun s h => softmax_sum_eq_one s h, fun s c => softmax_shift s c⟩

/-- Witness for C4 at the concrete vector `[0]` and shift `1`. -/
theorem C4_softmax_witness :
    ([(0 : ℝ)] ≠ []) ∧ (softmax [(0 : ℝ)]).sum = 1 ∧
      softmax ([(0 : ℝ)].map fun v => v + 1) = softmax [(0 : ℝ)] :=
  ⟨by simp, C4_softmax_sum_and_shift.1 [0] (by simp),
    C4_softmax_sum_and_shift.2 [0] 1⟩

/-- Claim C5: on every nonempty score vector `np.argmax` returns the
lowest index attaining the maximum (so ties resolve to the lowest index),
and in particular scoring the vector `[1.0, 1.0]` selects index `0`. -/
theorem C5_argmax_tie_lowest :
    (∀ {α : Type} [LinearOrder α] (l : List α), l ≠ [] →
      ∃ hlt : np_argmax l < l.length,
        (∀ j (hj : j < l.length), l.get ⟨j, hj⟩ ≤ l.get ⟨np_argmax l, hlt⟩) ∧
        (∀ j (hj : j < l.length), l.get ⟨j, hj⟩ = l.get ⟨np_argmax l, hlt⟩ →
          np_argmax l ≤ j)) ∧
    np_argmax [(1 : ℝ), 1] = 0 := by
  constructor
  · intro α _ l h
    exact np_argmax_spec l h
  · rw [np_argmax, np_argmaxGo, if_neg (lt_irrefl (1 : ℝ))]
    rfl

/-- Witness for C5 at the concrete tied vector `[2, 2, 1]` over `ℚ`. -/
theorem C5_argmax_witness :
    ([(2 : ℚ), 2, 1] ≠ []) ∧
      ∃ hlt : np_argmax [(2 : ℚ), 2, 1] < ([(2 : ℚ), 2, 1] : List ℚ).length,
        (∀ j (hj : j < ([(2 : ℚ), 2, 1] : List ℚ).length),
          ([(2 : ℚ), 2, 1] : List ℚ).get ⟨j, hj⟩ ≤
            ([(2 : ℚ), 2, 1] : List ℚ).get ⟨np_argmax [(2 : ℚ), 2, 1], hlt⟩) ∧
        (∀ j (hj : j < ([(2 : ℚ), 2, 1] : List ℚ).length),
          ([(2 : ℚ), 2, 1] : List ℚ).get ⟨j, hj⟩ =
            ([(2 : ℚ), 2, 1] : List ℚ).get ⟨np_argmax [(2 : ℚ), 2, 1], hlt⟩ →
          np_argmax [(2 : ℚ), 2, 1] ≤ j) :=
  ⟨by decide, C5_argmax_tie_lowest.1 [(2 : ℚ), 2, 1] (by decide)⟩

/-- Claim C10: `softmax` never changes the first arg-max index, so the
prediction of `evaluate` (arg-max over raw dot-product scores) coincides
with the prediction of `inference_on_samples` (arg-max position inside
the softmax probabilities of the same scores). -/
theorem C10_argmax_softmax_invariant :
    (∀ s : List ℝ, np_argmax (softmax s) = np_argmax s) ∧
    (∀ (labels : List String) (labelEmb : List (List ℝ)) (img : List ℝ),
      predictLabel labels labelEmb img =
        labels.getD (np_argmax (softmax (scoresFor labelEmb img))) "") := by
  refine ⟨np_argmax_softmax, ?_⟩
  intro labels labelEmb img
  rw [predictLabel, np_argmax_softmax]

/-- Counterexample to claim C3 as stated: the code's `softmax` applied to
the 2-D batch `[[0,0],[0,0]]` normalizes by the global sum, so the first
row of the output sums to `1/2`, not `1`. -/
theorem C3_counterexample :
    ((softmax2d [[(0 : ℝ), 0], [0, 0]]).getD 0 []).sum ≠ 1 := by
  have hM : np_max ([[(0 : ℝ), 0], [0, 0]] : List (List ℝ)).flatten = 0 := by
    show np_max [(0 : ℝ), 0, 0, 0] = 0
    rw [np_max]
    norm_num
  rw [softmax2d, hM]
  norm_num [Real.exp_zero]

/-- Claim C3 (amended): the code's `softmax`, applied to a 2-D batch,
subtracts the global maximum and divides by the global sum, so the
entries of the whole output array sum to `1` (individual rows in general
do not); `evaluate` itself never applies `softmax` to its 2-D score
batch and takes the arg-max of the raw scores. -/
theorem C3_softmax2d_global (x : List (List ℝ)) (hne : x.flatten ≠ []) :
    ((softmax2d x).map List.sum).sum = 1 :=
  softmax2d_total_sum x hne

/-- Witness for the amended C3 at the concrete batch `[[0]]`. -/
theorem C3_softmax2d_witness :
    (([[(0 : ℝ)]] : List (List ℝ)).flatten ≠ []) ∧
      ((softmax2d [[(0 : ℝ)]]).map List.sum).sum = 1 :=
  ⟨by simp, C3_softmax2d_global [[(0 : ℝ)]] (by simp)⟩

/-- Entry `(i, j)` of the normalized label matrix is the raw entry
divided by the Euclidean norm of column `j` across all label rows. -/
theorem normalize_label_embeddings_entry (E : List (List ℝ)) (i j : Nat)
    (hi : i < E.length) (hj : j < (E.getD i []).length) :
    ((normalize_label_embeddings E).getD i []).getD j 0 =
      (E.getD i []).getD j 0 / Real.sqrt ((E.map fun r => (r.getD j 0) ^ 2).sum) := by
  have hEi : E.getD i [] = E[i] := List.getD_eq_getElem E [] hi
  rw [hEi] at hj ⊢
  have h1 : (normalize_label_embeddings E).getD i [] = normalizeRow E E[i] := by
    rw [normalize_label_embeddings,
      List.getD_eq_getElem (E.map (normalizeRow E)) [] (by simpa using hi),
      List.getElem_map]
  rw [h1, normalizeRow]
  have hj' : j < ((List.range E[i].length).map
      fun k => E[i].getD k 0 / colNorm E k).length := by
    simpa using hj
  rw [List.getD_eq_getElem _ 0 hj', List.getElem_map, List.getElem_range]
  rfl

/-- Claim C2: in `prepare_dataset` each raw label embedding entry is
divided by the norm of its embedding dimension's column taken across all
labels (the cross-sample axis), and this differs from per-row L2
self-normalization of each label vector. -/
theorem C2_normalization_axis :
    (∀ (E : List (List ℝ)) (i j : Nat) (hi : i < E.length)
        (hj : j < (E.getD i []).length),
      ((normalize_label_embeddings E).getD i []).getD j 0 =
        (E.getD i []).getD j 0 / Real.sqrt ((E.map fun r => (r.getD j 0) ^ 2).sum)) ∧
    normalize_label_embeddings [[(1 : ℝ), 0], [1, 1]] ≠
      normalize_per_row [[(1 : ℝ), 0], [1, 1]] := by
  constructor
  · exact normalize_label_embeddings_entry
  · intro hcon
    have h0 : ((normalize_label_embeddings [[(1 : ℝ), 0], [1, 1]]).getD 0 []).getD 0 0 =
        ((normalize_per_row [[(1 : ℝ), 0], [1, 1]]).getD 0 []).getD 0 0 := by
      rw [hcon]
    have hrange : List.range 2 = [0, 1] := rfl
    have hl : ((normalize_label_embeddings [[(1 : ℝ), 0], [1, 1]]).getD 0 []).getD 0 0 =
        1 / Real.sqrt 2 := by
      rw [normalize_label_embeddings]
      simp only [List.map_cons, List.map_nil, normalizeRow, List.length_cons,
        List.length_nil, hrange, colNorm]
      norm_num
    have hr : ((normalize_per_row [[(1 : ℝ), 0], [1, 1]]).getD 0 []).getD 0 0 = 1 := by
      rw [normalize_per_row]
      simp only [List.map_cons, List.map_nil, rowNormL2]
      norm_num
    rw [hl, hr] at h0
    have hs2 : Real.sqrt 2 = 1 := by
      have hpos : 0 < Real.sqrt 2 := Real.sqrt_pos.mpr (by norm_num)
      field_simp at h0
      exact h0.symm
    rw [Real.sqrt_eq_one] at hs2
    norm_num at hs2

/-- Witness for C2 at the concrete matrix `[[2]]` and entry `(0, 0)`. -/
theorem C2_normalization_witness :
    (0 < ([[(2 : ℝ)]] : List (List ℝ)).length) ∧
      (0 < (([[(2 : ℝ)]] : List (List ℝ)).getD 0 []).length) ∧
      ((normalize_label_embeddings [[(2 : ℝ)]]).getD 0 []).getD 0 0 =
        (([[(2 : ℝ)]] : List (List ℝ)).getD 0 []).getD 0 0 /
          Real.sqrt ((([[(2 : ℝ)]] : List (List ℝ)).map fun r => (r.getD 0 0) ^ 2).sum) :=
  ⟨by simp, by simp, C2_normalization_axis.1 [[(2 : ℝ)]] 0 0 (by simp) (by simp)⟩

/-- Claim C6: row `i` of the label embedding matrix is the normalized
embedding of the `i`-th vocabulary entry (order is preserved by the
template, the encoding and the normalization, all of which map over the
rows), and the predicted label obtained by indexing the vocabulary with
the arg-max row index of the score vector is a label whose row achieved
the highest similarity score. -/
theorem C6_row_alignment (textEnc : String → List ℝ) (labels : List String)
    (img : List ℝ) :
    (labelMatrix textEnc labels).length = labels.length ∧
    (∀ i (hi : i < labels.length),
      (labelMatrix textEnc labels).getD i [] =
        normalizeRow (labels.map fun l => textEnc (clip_template l))
          (textEnc (clip_template (labels.get ⟨i, hi⟩)))) ∧
    (labels ≠ [] →
      ∃ hm : np_argmax (scoresFor (labelMatrix textEnc labels) img) < labels.length,
        predictLabel labels (labelMatrix textEnc labels) img =
          labels.get ⟨np_argmax (scoresFor (labelMatrix textEnc labels) img), hm⟩ ∧
        ∀ j (hj : j < (scoresFor (labelMatrix textEnc labels) img).length),
          (scoresFor (labelMatrix textEnc labels) img).get ⟨j, hj⟩ ≤
            (scoresFor (labelMatrix textEnc labels) img).getD
              (np_argmax (scoresFor (labelMatrix textEnc labels) img)) 0) := by
  have hlen : (labelMatrix textEnc labels).length = labels.length := by
    rw [labelMatrix, normalize_label_embeddings, List.length_map, List.length_map]
  refine ⟨hlen, ?_, ?_⟩
  · intro i hi
    have hi' : i < (labelMatrix textEnc labels).length := by rw [hlen]; exact hi
    rw [List.getD_eq_getElem _ [] hi']
    simp only [labelMatrix, normalize_label_embeddings, List.getElem_map,
      List.get_eq_getElem]
  · intro hne
    have hsl : (scoresFor (labelMatrix textEnc labels) img).length = labels.length := by
      rw [scoresFor, List.length_map, hlen]
    have hsne : scoresFor (labelMatrix textEnc labels) img ≠ [] := by
      intro hc
      apply hne
      have := congrArg List.length hc
      rw [hsl] at this
      exact List.length_eq_zero.mp this
    rcases np_argmax_spec (scoresFor (labelMatrix textEnc labels) img) hsne with
      ⟨hlt, hmax, _⟩
    have hm : np_argmax (scoresFor (labelMatrix textEnc labels) img) < labels.length := by
      rw [← hsl]; exact hlt
    refine ⟨hm, ?_, ?_⟩
    · rw [predictLabel, List.getD_eq_getElem labels "" hm]
      rfl
    · intro j hj
      have hgd : (scoresFor (labelMatrix textEnc labels) img).getD
          (np_argmax (scoresFor (labelMatrix textEnc labels) img)) 0 =
          (scoresFor (labelMatrix textEnc labels) img).get
            ⟨np_argmax (scoresFor (labelMatrix textEnc labels) img), hlt⟩ := by
        rw [List.getD_eq_getElem _ 0 hlt, List.get_eq_getElem]
      rw [hgd]
      exact hmax j hj

/-- Witness for C6 at the constant encoder `fun _ => [1]`, vocabulary
`["cat"]` and image embedding `[1]`. -/
theorem C6_row_alignment_witness :
    (0 < (["cat"] : List String).length) ∧
    ((["cat"] : List String) ≠ []) ∧
    ((labelMatrix (fun _ => [(1 : ℝ)]) ["cat"]).getD 0 [] =
      normalizeRow ((["cat"] : List String).map fun l =>
          (fun _ : String => [(1 : ℝ)]) (clip_template l))
        ((fun _ : String => [(1 : ℝ)])
          (clip_template ((["cat"] : List String).get ⟨0, Nat.succ_pos 0⟩)))) ∧
    (∃ hm : np_argmax (scoresFor (labelMatrix (fun _ => [(1 : ℝ)]) ["cat"]) [1]) <
        (["cat"] : List String).length,
      predictLabel ["cat"] (labelMatrix (fun _ => [(1 : ℝ)]) ["cat"]) [1] =
        (["cat"] : List String).get
          ⟨np_argmax (scoresFor (labelMatrix (fun _ => [(1 : ℝ)]) ["cat"]) [1]), hm⟩ ∧
      ∀ j (hj : j < (scoresFor (labelMatrix (fun _ => [(1 : ℝ)]) ["cat"]) [1]).length),
        (scoresFor (labelMatrix (fun _ => [(1 : ℝ)]) ["cat"]) [1]).get ⟨j, hj⟩ ≤
          (scoresFor (labelMatrix (fun _ => [(1 : ℝ)]) ["cat"]) [1]).getD
            (np_argmax (scoresFor (labelMatrix (fun _ => [(1 : ℝ)]) ["cat"]) [1])) 0) :=
  ⟨by decide, by decide,
    (C6_row_alignment (fun _ => [(1 : ℝ)]) ["cat"] [1]).2.1 0 (Nat.succ_pos 0),
    (C6_row_alignment (fun _ => [(1 : ℝ)]) ["cat"] [1]).2.2 (by decide)⟩

/-- Summing the 0/1 indicator of a decidable predicate over a list counts
the positions satisfying it (numpy's boolean-mean numerator). -/
theorem sum_ite_one_eq_countP {α : Type} (P : α → Prop) [DecidablePred P]
    (l : List α) :
    (l.map fun a => if P a then (1 : ℚ) else 0).sum = (l.countP fun a => P a : ℚ) := by
  induction l with
  | nil => simp
  | cons a l ih =>
    rw [List.map_cons, List.sum_cons, ih, List.countP_cons]
    by_cases h : P a <;> simp [h, add_comm]

/-- Membership in the sorted deduplicated list is membership in the
original list. -/
theorem mem_uniqueSorted (a : String) (l : List String) :
    a ∈ uniqueSorted l ↔ a ∈ l := by
  rw [uniqueSorted, (List.perm_insertionSort _ _).mem_iff]
  exact List.mem_dedup

/-- On identical true/predicted sequences every agreement position is a
true positive of its class. -/
theorem truePos_self (t : List String) (c : String) :
    truePos t t c = countEq t c := by
  rw [truePos, countEq]
  induction t with
  | nil => rfl
  | cons a t ih =>
    rw [List.zip_cons_cons, List.countP_cons, List.countP_cons, ih]
    by_cases h : a = c <;> simp [h]

/-- On identical sequences every position matches. -/
theorem matchCount_self (t : List String) : matchCount t t = t.length := by
  rw [matchCount]
  induction t with
  | nil => rfl
  | cons a t ih =>
    rw [List.zip_cons_cons, List.countP_cons, ih]
    simp

/-- A member class has positive occurrence count. -/
theorem countEq_pos_of_mem {c : String} {l : List String} (hc : c ∈ l) :
    0 < countEq l c := by
  rw [countEq, List.countP_pos_iff]
  exact ⟨c, hc, by simp⟩

/-- A class present in the reference sequence has per-class precision `1`
against itself. -/
theorem classPrecision_self {t : List String} {c : String} (hc : c ∈ t) :
    classPrecision t t c = 1 := by
  have hpos : countEq t c ≠ 0 := Nat.pos_iff_ne_zero.mp (countEq_pos_of_mem hc)
  rw [classPrecision, if_neg hpos, truePos_self]
  exact div_self (Nat.cast_ne_zero.mpr hpos)

/-- A class present in the reference sequence has per-class recall `1`
against itself. -/
theorem classRecall_self {t : List String} {c : String} (hc : c ∈ t) :
    classRecall t t c = 1 := by
  have hpos : support t c ≠ 0 := Nat.pos_iff_ne_zero.mp (countEq_pos_of_mem hc)
  rw [classRecall, if_neg hpos, truePos_self]
  exact div_self (Nat.cast_ne_zero.mpr hpos)

/-- A class present in the reference sequence has per-class F1 `1`
against itself. -/
theorem classF1_self {t : List String} {c : String} (hc : c ∈ t) :
    classF1 t t c = 1 := by
  rw [classF1, classPrecision_self hc, classRecall_self hc]
  norm_num

/-- The classes present when scoring a sequence against itself are its
members. -/
theorem mem_presentLabels_self (c : String) (t : List String) :
    c ∈ presentLabels t t ↔ c ∈ t := by
  rw [presentLabels, mem_uniqueSorted]
  simp [List.mem_append]

/-- The support-weighted average of a metric equal to `1` on every
present class is `1` when the total support is positive. -/
theorem weightedAvg_of_one (t p : List String) (m : String → ℚ)
    (h1 : ∀ c ∈ presentLabels t p, m c = 1)
    (hpos : 0 < ((presentLabels t p).map fun c => (support t c : ℚ)).sum) :
    weightedAvg t p m = 1 := by
  rw [weightedAvg]
  have hmap : (presentLabels t p).map (fun c => (support t c : ℚ) * m c) =
      (presentLabels t p).map fun c => (support t c : ℚ) :=
    List.map_congr_left fun c hc => by rw [h1 c hc, mul_one]
  rw [hmap]
  exact div_self (ne_of_gt hpos)

/-- Against itself, a nonempty sequence has positive total support. -/
theorem supportSum_self_pos (t : List String) (h : t ≠ []) :
    0 < ((presentLabels t t).map fun c => (support t c : ℚ)).sum := by
  apply List.sum_pos
  · intro x hx
    rcases List.mem_map.mp hx with ⟨c, hc, rfl⟩
    exact_mod_cast countEq_pos_of_mem ((mem_presentLabels_self c t).mp hc)
  · rcases List.exists_mem_of_ne_nil t h with ⟨a, ha⟩
    have hm : a ∈ presentLabels t t := (mem_presentLabels_self a t).mpr ha
    intro hc
    rw [List.map_eq_nil_iff] at hc
    rw [hc] at hm
    exact absurd hm (List.not_mem_nil a)

/-- Claim C8: on a nonempty pass whose predictions equal the true labels
elementwise, `evaluate`'s accuracy and weighted precision/recall/F1 all
equal `1`. -/
theorem C8_all_correct (t : List String) (h : t ≠ []) :
    accuracy t t = 1 ∧ weightedPrecision t t = 1 ∧ weightedRecall t t = 1 ∧
      weightedF1 t t = 1 := by
  have hlen : (t.length : ℚ) ≠ 0 := by
    simpa using fun hc => h (List.length_eq_zero.mp hc)
  refine ⟨?_, ?_, ?_, ?_⟩
  · rw [accuracy, sum_ite_one_eq_countP]
    have hcnt : (t.zip t).countP (fun q => q.1 = q.2) = t.length := matchCount_self t
    rw [hcnt]
    exact div_self hlen
  · exact weightedAvg_of_one t t _
      (fun c hc => classPrecision_self ((mem_presentLabels_self c t).mp hc))
      (supportSum_self_pos t h)
  · exact weightedAvg_of_one t t _
      (fun c hc => classRecall_self ((mem_presentLabels_self c t).mp hc))
      (supportSum_self_pos t h)
  · exact weightedAvg_of_one t t _
      (fun c hc => classF1_self ((mem_presentLabels_self c t).mp hc))
      (supportSum_self_pos t h)

/-- Witness for C8 at the concrete one-sample pass `["a"]`. -/
theorem C8_all_correct_witness :
    ((["a"] : List String) ≠ []) ∧
      (accuracy ["a"] ["a"] = 1 ∧ weightedPrecision ["a"] ["a"] = 1 ∧
        weightedRecall ["a"] ["a"] = 1 ∧ weightedF1 ["a"] ["a"] = 1) :=
  ⟨by simp, C8_all_correct ["a"] (by simp)⟩

/-- Claim C7: the accuracy of `evaluate` is the fraction of positions at
which the prediction equals the true label, and on the 4-sample batch
with true labels `["cat","dog","cat","dog"]` and predictions
`["cat","dog","dog","dog"]` the accuracy is `3/4` and the
support-weighted precision/recall/F1 take their standard per-class
weighted values `5/6`, `3/4` and `11/15`. -/
theorem C7_accuracy_and_weighted_example :
    (∀ p t : List String, p.length = t.length →
      accuracy p t = (matchCount p t : ℚ) / (p.length : ℚ)) ∧
    accuracy ["cat", "dog", "dog", "dog"] ["cat", "dog", "cat", "dog"] = 3 / 4 ∧
    weightedPrecision ["cat", "dog", "cat", "dog"] ["cat", "dog", "dog", "dog"] = 5 / 6 ∧
    weightedRecall ["cat", "dog", "cat", "dog"] ["cat", "dog", "dog", "dog"] = 3 / 4 ∧
    weightedF1 ["cat", "dog", "cat", "dog"] ["cat", "dog", "dog", "dog"] = 11 / 15 := by
  have h1 : ("cat" : String) ≤ "dog" := String.le_iff_toList_le.mpr (by decide)
  have hp : presentLabels ["cat", "dog", "cat", "dog"] ["cat", "dog", "dog", "dog"] =
      ["cat", "dog"] := by
    simp [presentLabels, uniqueSorted, List.dedup, List.pwFilter, List.insertionSort,
      List.orderedInsert, h1]
  refine ⟨?_, ?_, ?_, ?_, ?_⟩
  · intro p t _
    rw [accuracy, sum_ite_one_eq_countP, matchCount]
  · rw [accuracy]
    simp only [List.zip_cons_cons, List.zip_nil_right, List.map_cons, List.map_nil,
      List.sum_cons, List.sum_nil, List.length_cons, List.length_nil]
    rw [if_neg (by decide : ¬ ("dog" : String) = "cat")]
    norm_num
  · rw [weightedPrecision, weightedAvg, hp]
    simp [support, countEq, classPrecision, truePos, List.countP, List.countP.go]
    norm_num
  · rw [weightedRecall, weightedAvg, hp]
    simp [support, countEq, classRecall, truePos, List.countP, List.countP.go]
    norm_num
  · rw [weightedF1, weightedAvg, hp]
    simp [support, countEq, classF1, classPrecision, classRecall, truePos,
      List.countP, List.countP.go]
    norm_num

/-- Witness for the general accuracy statement of C7 at the one-sample
lists `["x"]`. -/
theorem C7_accuracy_witness :
    ((["x"] : List String).length = (["x"] : List String).length) ∧
      accuracy ["x"] ["x"] = (matchCount ["x"] ["x"] : ℚ) /
        ((["x"] : List String).length : ℚ) :=
  ⟨rfl, C7_accuracy_and_weighted_example.1 ["x"] ["x"] rfl⟩

/-- The sorted deduplicated list has no duplicates. -/
theorem uniqueSorted_nodup (l : List String) : (uniqueSorted l).Nodup := by
  rw [uniqueSorted]
  exact (List.perm_insertionSort _ _).nodup_iff.mpr (List.nodup_dedup l)

/-- The sorted deduplicated list is sorted. -/
theorem uniqueSorted_sorted (l : List String) :
    List.Sorted (fun a b : String => a ≤ b) (uniqueSorted l) :=
  List.sorted_insertionSort _ _

/-- Two lists with the same members have the same sorted deduplicated
list. -/
theorem uniqueSorted_congr (l₁ l₂ : List String)
    (h : ∀ a, a ∈ l₁ ↔ a ∈ l₂) : uniqueSorted l₁ = uniqueSorted l₂ := by
  apply List.eq_of_perm_of_sorted _ (uniqueSorted_sorted l₁) (uniqueSorted_sorted l₂)
  apply (List.perm_ext_iff_of_nodup (uniqueSorted_nodup l₁) (uniqueSorted_nodup l₂)).mpr
  intro a
  rw [mem_uniqueSorted, mem_uniqueSorted]
  exact h a

/-- On a nonempty vocabulary, the predicted label always belongs to the
vocabulary: it is `labels[argmax]` with an in-range index. -/
theorem predictLabel_mem (textEnc : String → List ℝ) (labels : List String)
    (img : List ℝ) (h : labels ≠ []) :
    predictLabel labels (labelMatrix textEnc labels) img ∈ labels := by
  have hlen : (scoresFor (labelMatrix textEnc labels) img).length = labels.length := by
    rw [scoresFor, List.length_map, labelMatrix, normalize_label_embeddings,
      List.length_map, List.length_map]
  have hsne : scoresFor (labelMatrix textEnc labels) img ≠ [] := by
    intro hc
    apply h
    have := congrArg List.length hc
    rw [hlen] at this
    exact List.length_eq_zero.mp this
  have hlt : np_argmax (scoresFor (labelMatrix textEnc labels) img) < labels.length := by
    rw [← hlen]
    exact np_argmax_lt_length _ hsne
  rw [predictLabel, List.getD_eq_getElem labels "" hlt]
  exact List.getElem_mem hlt

/-- Zipping a list with itself pairs each element with itself. -/
theorem list_zip_self {α : Type} (l : List α) : l.zip l = l.map fun a => (a, a) := by
  induction l with
  | nil => rfl
  | cons a l ih => rw [List.zip_cons_cons, List.map_cons, ih]

/-- Claim C1 (amended): at the end of a full dataset pass the
classification report succeeds and contains exactly one row per
vocabulary label, in vocabulary order; the classes over which the
weighted average ranges are exactly the vocabulary; and a vocabulary
label that never occurs among the predictions has precision, recall and
F1 equal to `0` but a positive support equal to its true-label count
(it therefore contributes its support as weight to the weighted
average, not weight `0`). -/
theorem C1_full_pass_report {Img : Type} (textEnc : String → List ℝ)
    (enc : Img → List ℝ) (dataset : List (Img × String)) (hne : dataset ≠ []) :
    runReport textEnc enc dataset =
      Except.ok ((runLabels dataset).map fun c =>
        (c, classPrecision (runTrue dataset) (runPreds textEnc enc dataset) c,
          classRecall (runTrue dataset) (runPreds textEnc enc dataset) c,
          classF1 (runTrue dataset) (runPreds textEnc enc dataset) c,
          support (runTrue dataset) c)) ∧
    presentLabels (runTrue dataset) (runPreds textEnc enc dataset) =
      runLabels dataset ∧
    (∀ c ∈ runLabels dataset, c ∉ runPreds textEnc enc dataset →
      classPrecision (runTrue dataset) (runPreds textEnc enc dataset) c = 0 ∧
      classRecall (runTrue dataset) (runPreds textEnc enc dataset) c = 0 ∧
      classF1 (runTrue dataset) (runPreds textEnc enc dataset) c = 0 ∧
      0 < support (runTrue dataset) c ∧
      support (runTrue dataset) c = countEq (runTrue dataset) c) := by
  have hlabne : runLabels dataset ≠ [] := by
    rcases List.exists_mem_of_ne_nil dataset hne with ⟨s, hs⟩
    have h1 : s.2 ∈ runTrue dataset := List.mem_map_of_mem _ hs
    have h2 : s.2 ∈ runLabels dataset := (mem_uniqueSorted _ _).mpr h1
    exact List.ne_nil_of_mem h2
  have hpredmem : ∀ x ∈ runPreds textEnc enc dataset, x ∈ runLabels dataset := by
    intro x hx
    rcases List.mem_map.mp hx with ⟨s, _, rfl⟩
    exact predictLabel_mem textEnc (runLabels dataset) (enc s.1) hlabne
  have hpresent : presentLabels (runTrue dataset) (runPreds textEnc enc dataset) =
      runLabels dataset := by
    rw [presentLabels]
    apply uniqueSorted_congr
    intro a
    constructor
    · intro ha
      rcases List.mem_append.mp ha with h | h
      · exact h
      · exact (mem_uniqueSorted _ _).mp (hpredmem a h)
    · exact List.mem_append_left _
  refine ⟨?_, hpresent, ?_⟩
  · rw [runReport, classification_report]
    have hus : uniqueSorted (runTrue dataset ++ runPreds textEnc enc dataset) =
        runLabels dataset := hpresent
    rw [hus, if_pos rfl, list_zip_self, List.map_map]
    rfl
  · intro c hc hcp
    have hcnt0 : countEq (runPreds textEnc enc dataset) c = 0 := by
      rw [countEq, List.countP_eq_zero]
      intro a ha
      simp only [decide_eq_true_eq]
      rintro rfl
      exact hcp ha
    have htp0 : truePos (runTrue dataset) (runPreds textEnc enc dataset) c = 0 := by
      rw [truePos, List.countP_eq_zero]
      rintro ⟨a, b⟩ hq
      simp only [decide_eq_true_eq, not_and]
      rintro - rfl
      exact hcp (List.of_mem_zip hq).2
    have hP : classPrecision (runTrue dataset) (runPreds textEnc enc dataset) c = 0 := by
      rw [classPrecision, if_pos hcnt0]
    have hR : classRecall (runTrue dataset) (runPreds textEnc enc dataset) c = 0 := by
      rw [classRecall]
      by_cases hs : support (runTrue dataset) c = 0
      · rw [if_pos hs]
      · rw [if_neg hs, htp0]
        simp
    have hF : classF1 (runTrue dataset) (runPreds textEnc enc dataset) c = 0 := by
      rw [classF1, hP, hR]
      norm_num
    have hsup : 0 < support (runTrue dataset) c :=
      countEq_pos_of_mem ((mem_uniqueSorted _ _).mp hc)
    exact ⟨hP, hR, hF, hsup, rfl⟩

/-- Witness for the amended C1 at the concrete two-sample run `ds0`. -/
theorem C1_full_pass_witness :
    (ds0 ≠ []) ∧
      (runReport textEnc0 id ds0 =
        Except.ok ((runLabels ds0).map fun c =>
          (c, classPrecision (runTrue ds0) (runPreds textEnc0 id ds0) c,
            classRecall (runTrue ds0) (runPreds textEnc0 id ds0) c,
            classF1 (runTrue ds0) (runPreds textEnc0 id ds0) c,
            support (runTrue ds0) c)) ∧
      presentLabels (runTrue ds0) (runPreds textEnc0 id ds0) = runLabels ds0 ∧
      (∀ c ∈ runLabels ds0, c ∉ runPreds textEnc0 id ds0 →
        classPrecision (runTrue ds0) (runPreds textEnc0 id ds0) c = 0 ∧
        classRecall (runTrue ds0) (runPreds textEnc0 id ds0) c = 0 ∧
        classF1 (runTrue ds0) (runPreds textEnc0 id ds0) c = 0 ∧
        0 < support (runTrue ds0) c ∧
        support (runTrue ds0) c = countEq (runTrue ds0) c)) :=
  ⟨by simp [ds0], C1_full_pass_report textEnc0 id ds0 (by simp [ds0])⟩

/-- String comparison fact used for the concrete runs. -/
theorem str_a_le_b : ("a" : String) ≤ "b" :=
  String.le_iff_toList_le.mpr (by decide)

/-- String comparison fact used for the concrete runs. -/
theorem str_not_b_le_a : ¬ ("b" : String) ≤ "a" :=
  fun h => absurd (String.le_iff_toList_le.mp h) (by decide)

/-- The vocabulary of the concrete run `ds0` is `["a", "b"]`. -/
theorem runLabels_ds0 : runLabels ds0 = ["a", "b"] := by
  have hmap : ds0.map (fun s => s.2) = ["a", "b"] := rfl
  show uniqueSorted (ds0.map fun s => s.2) = ["a", "b"]
  rw [hmap]
  simp only [uniqueSorted, List.dedup, List.pwFilter, List.insertionSort,
    List.orderedInsert]
  simp
  decide

/-- The label embedding matrix of the concrete run `ds0` is the identity
`[[1], [0]]` (the column norm is `1`). -/
theorem runLabelEmb_ds0 : runLabelEmb textEnc0 ds0 = [[1], [0]] := by
  rw [runLabelEmb, runLabels_ds0, labelMatrix]
  have hE : ((["a", "b"] : List String).map fun l => textEnc0 (clip_template l)) =
      [[(1 : ℝ)], [0]] := by
    simp [textEnc0, clip_template]
  rw [hE]
  have hcol : colNorm [[(1 : ℝ)], [0]] 0 = 1 := by
    rw [colNorm]
    norm_num
  rw [normalize_label_embeddings]
  rw [List.map_cons, List.map_cons, List.map_nil, normalizeRow, normalizeRow]
  rw [show List.range ([(1 : ℝ)] : List ℝ).length = [0] from rfl]
  rw [show List.range ([(0 : ℝ)] : List ℝ).length = [0] from rfl]
  rw [List.map_cons, List.map_nil, List.map_cons, List.map_nil, hcol]
  norm_num

/-- Both samples of the concrete run `ds0` are predicted as `"a"`. -/
theorem runPreds_ds0 : runPreds textEnc0 id ds0 = ["a", "a"] := by
  have hscore : scoresFor [[(1 : ℝ)], [0]] [1] = [1, 0] := by
    simp [scoresFor, dot]
  have hidx : np_argmax ([(1 : ℝ), 0]) = 0 := by
    rw [np_argmax, np_argmaxGo, if_neg (by norm_num : ¬ (1 : ℝ) < 0), np_argmaxGo]
  have hpl : predictLabel (runLabels ds0) (runLabelEmb textEnc0 ds0) [1] = "a" := by
    rw [predictLabel, runLabelEmb_ds0, hscore, hidx, runLabels_ds0]
    rfl
  have hexp : runPreds textEnc0 id ds0 =
      [predictLabel (runLabels ds0) (runLabelEmb textEnc0 ds0) [1],
        predictLabel (runLabels ds0) (runLabelEmb textEnc0 ds0) [1]] := rfl
  rw [hexp, hpl]

/-- Counterexample to claim C1 as stated: in the concrete full pass over
`ds0` the vocabulary is `["a", "b"]`, the label `"b"` never occurs among
the predictions, yet its report row has support `1` (its true-label
count), not `0`, and it contributes weight `1` to the weighted average:
the weighted precision is `(1*(1/2) + 1*0)/2 = 1/4` rather than the
`1/2` it would be if `"b"` contributed no weight. -/
theorem C1_counterexample :
    ("b" ∉ runPreds textEnc0 id ds0) ∧
    runReport textEnc0 id ds0 =
      Except.ok [("a", 1/2, 1, 2/3, 1), ("b", 0, 0, 0, 1)] ∧
    weightedPrecision (runTrue ds0) (runPreds textEnc0 id ds0) = 1/4 := by
  have htru : runTrue ds0 = ["a", "b"] := rfl
  have hps : uniqueSorted (["a", "b"] ++ ["a", "a"]) = ["a", "b"] := by
    simp only [uniqueSorted, List.dedup, List.pwFilter, List.insertionSort,
      List.orderedInsert, List.cons_append, List.nil_append]
    simp
    decide
  refine ⟨?_, ?_, ?_⟩
  · rw [runPreds_ds0]
    simp
  · rw [runReport, runPreds_ds0, htru, runLabels_ds0, classification_report, hps]
    rw [if_pos rfl]
    simp [classPrecision, classRecall, classF1, truePos, countEq, support,
      List.countP, List.countP.go]
    norm_num
  · rw [runPreds_ds0, htru, weightedPrecision, weightedAvg, presentLabels, hps]
    simp [classPrecision, truePos, countEq, support, List.countP, List.countP.go]
    norm_num

/-- Lower bound `17/8 < e^{0.8}` via `1.1 ≤ e^{0.1}` and `e^{0.8} =
(e^{0.1})^8`. -/
theorem exp_08_gt : (17 : ℝ) / 8 < Real.exp 0.8 := by
  have h1 : (1.1 : ℝ) ≤ Real.exp 0.1 := by
    have := Real.add_one_le_exp (0.1 : ℝ)
    linarith
  have h2 : Real.exp (0.8 : ℝ) = Real.exp 0.1 ^ (8 : ℕ) := by
    rw [← Real.exp_nat_mul]
    norm_num
  rw [h2]
  calc (17 : ℝ) / 8 < 1.1 ^ (8 : ℕ) := by norm_num
    _ ≤ Real.exp 0.1 ^ (8 : ℕ) := pow_le_pow_left (by norm_num) h1 8

/-- Upper bound `e^{0.8} < 7/3` via `0.9 ≤ e^{-0.1}`, hence
`e^{0.1} ≤ 10/9`, and `e^{0.8} = (e^{0.1})^8`. -/
theorem exp_08_lt : Real.exp 0.8 < (7 : ℝ) / 3 := by
  have h1 : (0.9 : ℝ) ≤ Real.exp (-0.1) := by
    have := Real.add_one_le_exp (-0.1 : ℝ)
    linarith
  have h2 : Real.exp (0.1 : ℝ) ≤ 10 / 9 := by
    have hrw : Real.exp (0.1 : ℝ) = (Real.exp (-0.1 : ℝ))⁻¹ := by
      rw [← Real.exp_neg]
      norm_num
    rw [hrw]
    have hinv : (Real.exp (-0.1 : ℝ))⁻¹ ≤ (0.9 : ℝ)⁻¹ :=
      inv_le_inv_of_le (by norm_num) h1
    calc (Real.exp (-0.1 : ℝ))⁻¹ ≤ (0.9 : ℝ)⁻¹ := hinv
      _ = 10 / 9 := by norm_num
  have h3 : Real.exp (0.8 : ℝ) = Real.exp 0.1 ^ (8 : ℕ) := by
    rw [← Real.exp_nat_mul]
    norm_num
  rw [h3]
  calc Real.exp 0.1 ^ (8 : ℕ) ≤ (10 / 9 : ℝ) ^ (8 : ℕ) :=
        pow_le_pow_left (le_of_lt (Real.exp_pos _)) h2 8
    _ < 7 / 3 := by norm_num

/-- The maximum of the example score vector `[0.9, 0.1]`. -/
theorem np_max_ex : np_max [(0.9 : ℝ), 0.1] = 0.9 := by
  rw [np_max, List.foldl_cons, List.foldl_nil]
  exact max_eq_left (by norm_num)

/-- Closed form of `softmax [0.9, 0.1]`. -/
theorem softmax_ex : softmax [(0.9 : ℝ), 0.1] =
    [1 / (1 + Real.exp (-(0.8 : ℝ))),
      Real.exp (-(0.8 : ℝ)) / (1 + Real.exp (-(0.8 : ℝ)))] := by
  rw [softmax, np_max_ex]
  simp only [List.map_cons, List.map_nil, List.sum_cons, List.sum_nil]
  norm_num [Real.exp_zero]

/-- Claim C9: with vocabulary `["cat","dog"]`, label embedding matrix
`[[1,0],[0,1]]` and image embedding `[0.9, 0.1]`, the pipeline produces
raw scores `[0.9, 0.1]`, predicted label `"cat"`, a confidence
(softmax probability of the predicted label) strictly between `0.68` and
`0.70`, and a second softmax component strictly between `0.30` and
`0.32` -- i.e. softmax is approximately `[0.69, 0.31]`. -/
theorem C9_end_to_end :
    scoresFor [[(1 : ℝ), 0], [0, 1]] [0.9, 0.1] = [0.9, 0.1] ∧
    (["cat", "dog"] : List String).getD
      (np_argmax (scoresFor [[(1 : ℝ), 0], [0, 1]] [0.9, 0.1])) "" = "cat" ∧
    (0.68 < (softmax (scoresFor [[(1 : ℝ), 0], [0, 1]] [0.9, 0.1])).getD
        (np_argmax (scoresFor [[(1 : ℝ), 0], [0, 1]] [0.9, 0.1])) 0 ∧
      (softmax (scoresFor [[(1 : ℝ), 0], [0, 1]] [0.9, 0.1])).getD
        (np_argmax (scoresFor [[(1 : ℝ), 0], [0, 1]] [0.9, 0.1])) 0 < 0.70) ∧
    (0.30 < (softmax (scoresFor [[(1 : ℝ), 0], [0, 1]] [0.9, 0.1])).getD 1 0 ∧
      (softmax (scoresFor [[(1 : ℝ), 0], [0, 1]] [0.9, 0.1])).getD 1 0 < 0.32) := by
  have hs : scoresFor [[(1 : ℝ), 0], [0, 1]] [0.9, 0.1] = [0.9, 0.1] := by
    simp [scoresFor, dot]
  have hidx : np_argmax [(0.9 : ℝ), 0.1] = 0 := by
    rw [np_argmax, np_argmaxGo, if_neg (by norm_num : ¬ (0.9 : ℝ) < 0.1), np_argmaxGo]
  have hup : 0 < Real.exp (-(0.8 : ℝ)) := Real.exp_pos _
  have hu1 : Real.exp (-(0.8 : ℝ)) < 8 / 17 := by
    rw [show (-(0.8 : ℝ)) = -(0.8 : ℝ) from rfl, Real.exp_neg]
    have h := inv_lt_inv_of_lt (show (0 : ℝ) < 17 / 8 by norm_num)
      (by exact_mod_cast exp_08_gt)
    calc (Real.exp (0.8 : ℝ))⁻¹ < ((17 : ℝ) / 8)⁻¹ := h
      _ = 8 / 17 := by norm_num
  have hu2 : (3 : ℝ) / 7 < Real.exp (-(0.8 : ℝ)) := by
    rw [Real.exp_neg]
    have h := inv_lt_inv_of_lt (Real.exp_pos (0.8 : ℝ)) exp_08_lt
    calc (3 : ℝ) / 7 = ((7 : ℝ) / 3)⁻¹ := by norm_num
      _ < (Real.exp (0.8 : ℝ))⁻¹ := h
  have hden : 0 < 1 + Real.exp (-(0.8 : ℝ)) := by linarith
  refine ⟨hs, ?_, ?_, ?_⟩
  · rw [hs, hidx]
    rfl
  · rw [hs, hidx, softmax_ex]
    constructor
    · show (0.68 : ℝ) < 1 / (1 + Real.exp (-(0.8 : ℝ)))
      rw [lt_div_iff hden]
      linarith
    · show (1 : ℝ) / (1 + Real.exp (-(0.8 : ℝ))) < 0.70
      rw [div_lt_iff hden]
      linarith
  · rw [hs, softmax_ex]
    constructor
    · show (0.30 : ℝ) < Real.exp (-(0.8 : ℝ)) / (1 + Real.exp (-(0.8 : ℝ)))
      rw [lt_div_iff hden]
      linarith
    · show Real.exp (-(0.8 : ℝ)) / (1 + Real.exp (-(0.8 : ℝ))) < 0.32
      rw [div_lt_iff hden]
      linarith
